import Mathlib

/-!
Verification of the finite-difference beam-deflection notebook.

The notebook solves the fourth-order beam equation `u'''' = -alpha` on `[0,1]`
with a five-point stencil: it assembles an `N x N` dense matrix `A` and a load
vector `f` (interior stencil rows, then four boundary-condition rows), solves
`A u = f` with a direct dense solver, and compares against the closed-form
deflection.  The assembly is embedded below as the literal sequence of entry
writes performed by the code, machine floats being modelled by exact rationals.
-/

namespace Beam

/-- Grid spacing, translating `dx = 1.0/(N-1)`. -/
def dx (N : ℕ) : ℚ := 1 / ((N : ℚ) - 1)

/-- A single entry write `M[r, c] = x` on a dense matrix represented as a
total function on natural indices. -/
def writeEntry (M : ℕ → ℕ → ℚ) (r c : ℕ) (x : ℚ) : ℕ → ℕ → ℚ :=
  fun i j => if i = r ∧ j = c then x else M i j

/-- The body of the interior assembly loop, translating
`A[i,i-2] = 1.0; A[i,i-1] = -4.0; A[i,i] = 6.0; A[i,i+1] = -4.0; A[i,i+2] = 1.0`. -/
def stencilWrite (M : ℕ → ℕ → ℚ) (i : ℕ) : ℕ → ℕ → ℚ :=
  writeEntry (writeEntry (writeEntry (writeEntry (writeEntry M i (i - 2) 1)
    i (i - 1) (-4)) i i 6) i (i + 1) (-4)) i (i + 2) 1

/-- The interior loop `for i in range(2, N-2)` run over the all-zero matrix
`A = np.zeros((N,N))`; `range(2, N-2)` is the list `[2, ..., N-3]` with
`N - 4` elements. -/
def interiorA (N : ℕ) : ℕ → ℕ → ℚ :=
  (List.range' 2 (N - 4)).foldl stencilWrite fun _ _ => 0

/-- The boundary-condition overwrites on the matrix:
`A[0,0] = 1`, `A[1,0:2] = [1,-1]`, `A[N-2,N-3:N] = [1,-2,1]`,
`A[N-1,N-4:N] = [-1,3,-3,1]`, applied in program order (a later write wins). -/
def assembleA (N : ℕ) : ℕ → ℕ → ℚ :=
  writeEntry (writeEntry (writeEntry (writeEntry
    (writeEntry (writeEntry (writeEntry
      (writeEntry (writeEntry
        (writeEntry (interiorA N) 0 0 1)
        1 0 1) 1 1 (-1))
      (N - 2) (N - 3) 1) (N - 2) (N - 2) (-2)) (N - 2) (N - 1) 1)
    (N - 1) (N - 4) (-1)) (N - 1) (N - 3) 3) (N - 1) (N - 2) (-3)) (N - 1) (N - 1) 1

/-- A single entry write `f[r] = x` on a vector represented as a total
function on natural indices. -/
def writeLoad (f : ℕ → ℚ) (r : ℕ) (x : ℚ) : ℕ → ℚ :=
  fun i => if i = r then x else f i

/-- The interior load loop, translating
`for i in range(2, N-2): f[i] = -alpha*dx**4` run over `f = np.zeros(N)`. -/
def interiorF (N : ℕ) (alpha : ℚ) : ℕ → ℚ :=
  (List.range' 2 (N - 4)).foldl (fun f i => writeLoad f i (-alpha * dx N ^ 4)) fun _ => 0

/-- The boundary-condition load writes
`f[0] = 0; f[1] = 0; f[N-2] = 0; f[N-1] = 0`. -/
def assembleF (N : ℕ) (alpha : ℚ) : ℕ → ℚ :=
  writeLoad (writeLoad (writeLoad (writeLoad (interiorF N alpha) 0 0) 1 0) (N - 2) 0) (N - 1) 0

/-- The whole assembly stage: the operator matrix and the load vector as
functions of the grid size `N` and the body force `alpha`. -/
def assemble (N : ℕ) (alpha : ℚ) : (ℕ → ℕ → ℚ) × (ℕ → ℚ) :=
  (assembleA N, assembleF N alpha)

/-- Assembly-stage errors named by the specification. -/
inductive AssembleError where
  | invalidDomainSize
deriving DecidableEq

/-- The assembly stage with its error channel made explicit: the notebook
code contains no domain-size validation, so assembly never fails. -/
def assembleE (N : ℕ) (alpha : ℚ) : Except AssembleError ((ℕ → ℕ → ℚ) × (ℕ → ℚ)) :=
  Except.ok (assemble N alpha)

/-- The assembled operator as an `N x N` rational matrix. -/
def assembleMatrix (N : ℕ) (alpha : ℚ) : Matrix (Fin N) (Fin N) ℚ :=
  Matrix.of fun i j => (assemble N alpha).1 i.val j.val

/-- The assembled load as an `N`-vector. -/
def loadVec (N : ℕ) (alpha : ℚ) : Fin N → ℚ :=
  fun i => (assemble N alpha).2 i.val

/-- Solver errors named by the specification. -/
inductive SolveError where
  | singularMatrix
deriving DecidableEq

/-- Modelled from the spec: the notebook calls `numpy.linalg.solve`, whose
implementation is not part of this repository.  Per section 4.2 it is a direct
dense solve that returns the unique solution of `A x = f`, failing with
`SingularMatrix` exactly when the matrix is singular; over exact rationals
this is realised by the Cramer formula. -/
def solve {n : ℕ} (A : Matrix (Fin n) (Fin n) ℚ) (f : Fin n → ℚ) :
    Except SolveError (Fin n → ℚ) :=
  if A.det = 0 then Except.error SolveError.singularMatrix
  else Except.ok fun i => A.det⁻¹ * Matrix.cramer A f i

/-- The reference sample points, translating `x_ref = np.linspace(0, 1, m)`
(the notebook uses `m = 30`): `m` uniformly spaced points from 0 to 1. -/
def x_ref (m : ℕ) : List ℚ :=
  (List.range m).map fun k : ℕ => (k : ℚ) / ((m : ℚ) - 1)

/-- The closed-form deflection at one sample point, translating the
pointwise (numpy-broadcast) expression
`u_ref = -alpha*x_ref**2 * (1.0/4.0 - x_ref/6.0 + x_ref**2/24.0)`. -/
def u_ref (alpha x : ℚ) : ℚ :=
  -alpha * x ^ 2 * (1 / 4 - x / 6 + x ^ 2 / 24)

/-- The analytical reference curve: the ordered sequence of `(x, u(x))`
samples. -/
def reference (alpha : ℚ) (m : ℕ) : List (ℚ × ℚ) :=
  (x_ref m).map fun x => (x, u_ref alpha x)

/-- Extend a finitely indexed vector by zero to all natural indices. -/
def vExt {N : ℕ} (v : Fin N → ℚ) : ℕ → ℚ :=
  fun k => if h : k < N then v ⟨k, h⟩ else 0

/-- The exact solution of the assembled system at N = 5, b = 1. -/
def u5 : Fin 5 → ℚ := ![0, 0, -(1/256), -(1/128), -(3/256)]

/-- The exact solution of the assembled system at N = 5, b = 2. -/
def u5d : Fin 5 → ℚ := ![0, 0, -(1/128), -(1/64), -(3/128)]

/-! ### Entry characterisation of the assembled matrix -/

lemma writeEntry_ne_row {M : ℕ → ℕ → ℚ} {r c : ℕ} {x : ℚ} {i : ℕ} (h : i ≠ r) (j : ℕ) :
    writeEntry M r c x i j = M i j := by
  simp [writeEntry, h]

lemma stencilWrite_ne_row {M : ℕ → ℕ → ℚ} {i r : ℕ} (h : r ≠ i) (j : ℕ) :
    stencilWrite M i r j = M r j := by
  simp [stencilWrite, writeEntry, h]

lemma stencilWrite_self (M : ℕ → ℕ → ℚ) (i j : ℕ) :
    stencilWrite M i i j =
      if j = i + 2 then 1 else if j = i + 1 then -4 else if j = i then 6
      else if j = i - 1 then -4 else if j = i - 2 then 1 else M i j := by
  simp [stencilWrite, writeEntry]

lemma foldl_stencilWrite_not_mem (l : List ℕ) :
    ∀ (M : ℕ → ℕ → ℚ) (r : ℕ), r ∉ l → ∀ j, (l.foldl stencilWrite M) r j = M r j := by
  induction l with
  | nil => intro M r _ j; rfl
  | cons a t ih =>
    intro M r hr j
    rw [List.foldl_cons, ih _ _ (fun h => hr (List.mem_cons_of_mem _ h)),
      stencilWrite_ne_row (fun h => hr (by rw [h]; exact List.mem_cons_self a t))]

lemma foldl_stencilWrite_mem (l : List ℕ) :
    l.Nodup → ∀ (M : ℕ → ℕ → ℚ) (r : ℕ), r ∈ l → ∀ j,
      (l.foldl stencilWrite M) r j =
        if j = r + 2 then 1 else if j = r + 1 then -4 else if j = r then 6
        else if j = r - 1 then -4 else if j = r - 2 then 1 else M r j := by
  induction l with
  | nil => intro _ M r hr; exact absurd hr (List.not_mem_nil r)
  | cons a t ih =>
    intro hnd M r hr j
    rw [List.nodup_cons] at hnd
    rw [List.foldl_cons]
    rcases List.mem_cons.mp hr with hra | hrt
    · subst hra
      rw [foldl_stencilWrite_not_mem t _ _ hnd.1, stencilWrite_self]
    · have hne : r ≠ a := fun h => hnd.1 (h ▸ hrt)
      rw [ih hnd.2 _ _ hrt, stencilWrite_ne_row hne]

lemma interiorA_eq_zero {N r : ℕ} (h : ¬(2 ≤ r ∧ r < N - 2)) (j : ℕ) :
    interiorA N r j = 0 := by
  unfold interiorA
  rw [foldl_stencilWrite_not_mem]
  simp only [List.mem_range'_1]
  omega

lemma interiorA_interior {N r : ℕ} (h2 : 2 ≤ r) (hr : r < N - 2) (j : ℕ) :
    interiorA N r j =
      if j = r + 2 then 1 else if j = r + 1 then -4 else if j = r then 6
      else if j = r - 1 then -4 else if j = r - 2 then 1 else 0 := by
  unfold interiorA
  rw [foldl_stencilWrite_mem _ (List.nodup_range' 2 (N - 4)) _ _
    (by simp only [List.mem_range'_1]; omega)]

lemma assembleA_row0 {N : ℕ} (h5 : 5 ≤ N) (j : ℕ) :
    assembleA N 0 j = if j = 0 then 1 else 0 := by
  have e1 : (0 : ℕ) ≠ N - 1 := by omega
  have e2 : (0 : ℕ) ≠ N - 2 := by omega
  have e3 : (0 : ℕ) ≠ 1 := by omega
  have hz : ∀ k, interiorA N 0 k = 0 := interiorA_eq_zero (by omega)
  unfold assembleA
  simp [writeEntry, e1, e2, e3, hz]

lemma assembleA_row1 {N : ℕ} (h5 : 5 ≤ N) (j : ℕ) :
    assembleA N 1 j = if j = 0 then 1 else if j = 1 then -1 else 0 := by
  have e1 : (1 : ℕ) ≠ N - 1 := by omega
  have e2 : (1 : ℕ) ≠ N - 2 := by omega
  have hz : ∀ k, interiorA N 1 k = 0 := interiorA_eq_zero (by omega)
  unfold assembleA
  simp only [writeEntry, e1, e2, hz, if_false, false_and, if_true, true_and]
  split_ifs <;> first | rfl | omega

lemma assembleA_rowN2 {N : ℕ} (h5 : 5 ≤ N) (j : ℕ) :
    assembleA N (N - 2) j =
      if j = N - 3 then 1 else if j = N - 2 then -2 else if j = N - 1 then 1 else 0 := by
  have e1 : N - 2 ≠ N - 1 := by omega
  have e2 : N - 2 ≠ 1 := by omega
  have e3 : N - 2 ≠ 0 := by omega
  have hz : ∀ k, interiorA N (N - 2) k = 0 := interiorA_eq_zero (by omega)
  unfold assembleA
  simp only [writeEntry, e1, e2, e3, hz, if_false, false_and, if_true, true_and]
  split_ifs <;> first | rfl | omega

lemma assembleA_rowN1 {N : ℕ} (h5 : 5 ≤ N) (j : ℕ) :
    assembleA N (N - 1) j =
      if j = N - 4 then -1 else if j = N - 3 then 3
      else if j = N - 2 then -3 else if j = N - 1 then 1 else 0 := by
  have e1 : N - 1 ≠ N - 2 := by omega
  have e2 : N - 1 ≠ 1 := by omega
  have e3 : N - 1 ≠ 0 := by omega
  have hz : ∀ k, interiorA N (N - 1) k = 0 := interiorA_eq_zero (by omega)
  unfold assembleA
  simp only [writeEntry, e1, e2, e3, hz, if_false, false_and, if_true, true_and]
  split_ifs <;> first | rfl | omega

lemma assembleA_rowInterior {N i : ℕ} (h5 : 5 ≤ N) (hi2 : 2 ≤ i) (hi3 : i ≤ N - 3) (j : ℕ) :
    assembleA N i j =
      if j = i - 2 then 1 else if j = i - 1 then -4 else if j = i then 6
      else if j = i + 1 then -4 else if j = i + 2 then 1 else 0 := by
  have e1 : i ≠ N - 1 := by omega
  have e2 : i ≠ N - 2 := by omega
  have e3 : i ≠ 1 := by omega
  have e4 : i ≠ 0 := by omega
  have hz : ∀ k, interiorA N i k =
      if k = i + 2 then 1 else if k = i + 1 then -4 else if k = i then 6
      else if k = i - 1 then -4 else if k = i - 2 then 1 else 0 :=
    interiorA_interior hi2 (by omega)
  unfold assembleA
  simp only [writeEntry, e1, e2, e3, e4, hz, if_false, false_and, if_true, true_and]
  split_ifs <;> first | rfl | omega

/-! ### Entry characterisation of the assembled load vector -/

lemma writeLoad_ne {f : ℕ → ℚ} {r : ℕ} {x : ℚ} {i : ℕ} (h : i ≠ r) :
    writeLoad f r x i = f i := by
  simp [writeLoad, h]

lemma foldl_writeLoad (l : List ℕ) (c : ℚ) :
    ∀ (f : ℕ → ℚ) (r : ℕ),
      (l.foldl (fun f i => writeLoad f i c) f) r = if r ∈ l then c else f r := by
  induction l with
  | nil => intro f r; simp
  | cons a t ih =>
    intro f r
    rw [List.foldl_cons, ih]
    by_cases hrt : r ∈ t
    · simp [hrt]
    · by_cases hra : r = a
      · simp [hrt, hra, writeLoad]
      · simp [hrt, hra, writeLoad]

lemma interiorF_eq {N : ℕ} (alpha : ℚ) (r : ℕ) :
    interiorF N alpha r =
      if 2 ≤ r ∧ r < 2 + (N - 4) then -alpha * dx N ^ 4 else 0 := by
  unfold interiorF
  rw [foldl_writeLoad]
  simp [List.mem_range'_1]

lemma assembleF_interior {N : ℕ} {alpha : ℚ} {i : ℕ} (h5 : 5 ≤ N)
    (hi2 : 2 ≤ i) (hi3 : i ≤ N - 3) :
    assembleF N alpha i = -alpha * dx N ^ 4 := by
  have e1 : i ≠ N - 1 := by omega
  have e2 : i ≠ N - 2 := by omega
  have e3 : i ≠ 1 := by omega
  have e4 : i ≠ 0 := by omega
  unfold assembleF
  rw [writeLoad_ne e1, writeLoad_ne e2, writeLoad_ne e3, writeLoad_ne e4, interiorF_eq,
    if_pos (by omega : 2 ≤ i ∧ i < 2 + (N - 4))]

lemma assembleF_boundary {N : ℕ} {alpha : ℚ} {i : ℕ} (h5 : 5 ≤ N)
    (hb : i = 0 ∨ i = 1 ∨ i = N - 2 ∨ i = N - 1) :
    assembleF N alpha i = 0 := by
  unfold assembleF
  rcases hb with hb | hb | hb | hb <;> subst hb
  · rw [writeLoad_ne (by omega : (0:ℕ) ≠ N - 1), writeLoad_ne (by omega : (0:ℕ) ≠ N - 2),
      writeLoad_ne (by omega : (0:ℕ) ≠ 1)]
    simp [writeLoad]
  · rw [writeLoad_ne (by omega : (1:ℕ) ≠ N - 1), writeLoad_ne (by omega : (1:ℕ) ≠ N - 2)]
    simp [writeLoad]
  · rw [writeLoad_ne (by omega : N - 2 ≠ N - 1)]
    simp [writeLoad]
  · simp [writeLoad]

/-! ### Row products of the assembled matrix -/

lemma vExt_coe {N : ℕ} (v : Fin N → ℚ) (j : Fin N) : vExt v j.val = v j := by
  simp [vExt, j.isLt]

lemma mulVec_apply_eq_sum_range {N : ℕ} (alpha : ℚ) (v : Fin N → ℚ) (i : Fin N) :
    (assembleMatrix N alpha).mulVec v i =
      ∑ k ∈ Finset.range N, assembleA N i.val k * vExt v k := by
  rw [← Fin.sum_univ_eq_sum_range (fun k => assembleA N i.val k * vExt v k) N]
  simp only [Matrix.mulVec, Matrix.dotProduct, assembleMatrix, assemble, Matrix.of_apply, vExt_coe]

lemma sum_range_ite_mul {N a : ℕ} (ha : a < N) (c : ℚ) (w : ℕ → ℚ) :
    ∑ k ∈ Finset.range N, (if k = a then c else 0) * w k = c * w a := by
  rw [Finset.sum_eq_single_of_mem a (Finset.mem_range.mpr ha)
    (fun b _ hb => by simp [hb])]
  simp

lemma dot_row0 {N : ℕ} (h5 : 5 ≤ N) (w : ℕ → ℚ) :
    ∑ k ∈ Finset.range N, assembleA N 0 k * w k = w 0 := by
  have hd : ∀ k, assembleA N 0 k * w k = (if k = 0 then (1 : ℚ) else 0) * w k := by
    intro k; rw [assembleA_row0 h5]
  rw [Finset.sum_congr rfl fun k _ => hd k, sum_range_ite_mul (by omega)]
  ring

lemma dot_row1 {N : ℕ} (h5 : 5 ≤ N) (w : ℕ → ℚ) :
    ∑ k ∈ Finset.range N, assembleA N 1 k * w k = w 0 - w 1 := by
  have hd : ∀ k, assembleA N 1 k * w k =
      (if k = 0 then (1 : ℚ) else 0) * w k + (if k = 1 then (-1 : ℚ) else 0) * w k := by
    intro k; rw [assembleA_row1 h5]; split_ifs <;> (first | omega | ring)
  rw [Finset.sum_congr rfl fun k _ => hd k, Finset.sum_add_distrib,
    sum_range_ite_mul (by omega : 0 < N), sum_range_ite_mul (by omega : 1 < N)]
  ring

lemma dot_rowInterior {N i : ℕ} (h5 : 5 ≤ N) (hi2 : 2 ≤ i) (hi3 : i ≤ N - 3) (w : ℕ → ℚ) :
    ∑ k ∈ Finset.range N, assembleA N i k * w k =
      w (i - 2) - 4 * w (i - 1) + 6 * w i - 4 * w (i + 1) + w (i + 2) := by
  have hd : ∀ k, assembleA N i k * w k =
      (if k = i - 2 then (1 : ℚ) else 0) * w k
      + (if k = i - 1 then (-4 : ℚ) else 0) * w k
      + (if k = i then (6 : ℚ) else 0) * w k
      + (if k = i + 1 then (-4 : ℚ) else 0) * w k
      + (if k = i + 2 then (1 : ℚ) else 0) * w k := by
    intro k; rw [assembleA_rowInterior h5 hi2 hi3]; split_ifs <;> (first | omega | ring)
  rw [Finset.sum_congr rfl fun k _ => hd k, Finset.sum_add_distrib, Finset.sum_add_distrib,
    Finset.sum_add_distrib, Finset.sum_add_distrib,
    sum_range_ite_mul (by omega : i - 2 < N), sum_range_ite_mul (by omega : i - 1 < N),
    sum_range_ite_mul (by omega : i < N), sum_range_ite_mul (by omega : i + 1 < N),
    sum_range_ite_mul (by omega : i + 2 < N)]
  ring

lemma dot_rowN2 {N : ℕ} (h5 : 5 ≤ N) (w : ℕ → ℚ) :
    ∑ k ∈ Finset.range N, assembleA N (N - 2) k * w k =
      w (N - 3) - 2 * w (N - 2) + w (N - 1) := by
  have hd : ∀ k, assembleA N (N - 2) k * w k =
      (if k = N - 3 then (1 : ℚ) else 0) * w k
      + (if k = N - 2 then (-2 : ℚ) else 0) * w k
      + (if k = N - 1 then (1 : ℚ) else 0) * w k := by
    intro k; rw [assembleA_rowN2 h5]; split_ifs <;> (first | omega | ring)
  rw [Finset.sum_congr rfl fun k _ => hd k, Finset.sum_add_distrib, Finset.sum_add_distrib,
    sum_range_ite_mul (by omega : N - 3 < N), sum_range_ite_mul (by omega : N - 2 < N),
    sum_range_ite_mul (by omega : N - 1 < N)]
  ring

lemma dot_rowN1 {N : ℕ} (h5 : 5 ≤ N) (w : ℕ → ℚ) :
    ∑ k ∈ Finset.range N, assembleA N (N - 1) k * w k =
      -w (N - 4) + 3 * w (N - 3) - 3 * w (N - 2) + w (N - 1) := by
  have hd : ∀ k, assembleA N (N - 1) k * w k =
      (if k = N - 4 then (-1 : ℚ) else 0) * w k
      + (if k = N - 3 then (3 : ℚ) else 0) * w k
      + (if k = N - 2 then (-3 : ℚ) else 0) * w k
      + (if k = N - 1 then (1 : ℚ) else 0) * w k := by
    intro k; rw [assembleA_rowN1 h5]; split_ifs <;> (first | omega | ring)
  rw [Finset.sum_congr rfl fun k _ => hd k, Finset.sum_add_distrib, Finset.sum_add_distrib,
    Finset.sum_add_distrib,
    sum_range_ite_mul (by omega : N - 4 < N), sum_range_ite_mul (by omega : N - 3 < N),
    sum_range_ite_mul (by omega : N - 2 < N), sum_range_ite_mul (by omega : N - 1 < N)]
  ring

/-! ### Nonsingularity of the assembled operator -/

/-- Any kernel vector of the assembled operator vanishes: the interior rows
force the discrete third difference to be constant, the two right
boundary rows force the third and second differences to vanish, and the two
left boundary rows then flatten the solution down to zero. -/
lemma kernel_eq_zero {N : ℕ} {alpha : ℚ} (h5 : 5 ≤ N) (v : Fin N → ℚ)
    (hv : (assembleMatrix N alpha).mulVec v = 0) : v = 0 := by
  set w : ℕ → ℚ := vExt v with hw
  have hrow : ∀ i : ℕ, ∀ hi : i < N, ∑ k ∈ Finset.range N, assembleA N i k * w k = 0 := by
    intro i hi
    have h := mulVec_apply_eq_sum_range alpha v ⟨i, hi⟩
    rw [hv] at h
    exact h.symm
  have h00 : w 0 = 0 := by
    have h := hrow 0 (by omega)
    rwa [dot_row0 h5] at h
  have h01 : w 0 - w 1 = 0 := by
    have h := hrow 1 (by omega)
    rwa [dot_row1 h5] at h
  have hInt : ∀ j, j ≤ N - 5 →
      w j - 4 * w (j + 1) + 6 * w (j + 2) - 4 * w (j + 3) + w (j + 4) = 0 := by
    intro j hj
    have h := hrow (j + 2) (by omega)
    rw [dot_rowInterior h5 (by omega) (by omega)] at h
    have e1 : j + 2 - 2 = j := by omega
    have e2 : j + 2 - 1 = j + 1 := by omega
    have e3 : j + 2 + 1 = j + 3 := by omega
    have e4 : j + 2 + 2 = j + 4 := by omega
    rwa [e1, e2, e3, e4] at h
  have hN2 : w (N - 3) - 2 * w (N - 2) + w (N - 1) = 0 := by
    have h := hrow (N - 2) (by omega)
    rwa [dot_rowN2 h5] at h
  have hN1 : -w (N - 4) + 3 * w (N - 3) - 3 * w (N - 2) + w (N - 1) = 0 := by
    have h := hrow (N - 1) (by omega)
    rwa [dot_rowN1 h5] at h
  -- the third difference is constant along the grid
  have hD3 : ∀ j, j ≤ N - 4 →
      w (j + 3) - 3 * w (j + 2) + 3 * w (j + 1) - w j
        = w 3 - 3 * w 2 + 3 * w 1 - w 0 := by
    intro j
    induction j with
    | zero => intro _; rfl
    | succ m ih =>
      intro hj
      have hm := hInt m (by omega)
      have hmih := ih (by omega)
      show w (m + 4) - 3 * w (m + 3) + 3 * w (m + 2) - w (m + 1)
        = w 3 - 3 * w 2 + 3 * w 1 - w 0
      linarith
  -- row N-1 makes the constant zero
  have hD3z : ∀ j, j ≤ N - 4 →
      w (j + 3) - 3 * w (j + 2) + 3 * w (j + 1) - w j = 0 := by
    have hbase := hD3 (N - 4) (le_refl (N - 4))
    have e1 : N - 4 + 3 = N - 1 := by omega
    have e2 : N - 4 + 2 = N - 2 := by omega
    have e3 : N - 4 + 1 = N - 3 := by omega
    rw [e1, e2, e3] at hbase
    intro j hj
    rw [hD3 j hj]
    linarith
  -- hence the second difference is constant, and row N-2 makes it zero
  have hD2 : ∀ j, j ≤ N - 3 →
      w (j + 2) - 2 * w (j + 1) + w j = w 2 - 2 * w 1 + w 0 := by
    intro j
    induction j with
    | zero => intro _; rfl
    | succ m ih =>
      intro hj
      have hm := hD3z m (by omega)
      have hmih := ih (by omega)
      show w (m + 3) - 2 * w (m + 2) + w (m + 1) = w 2 - 2 * w 1 + w 0
      linarith
  have hD2z : ∀ j, j ≤ N - 3 → w (j + 2) - 2 * w (j + 1) + w j = 0 := by
    have hbase := hD2 (N - 3) (le_refl (N - 3))
    have e1 : N - 3 + 2 = N - 1 := by omega
    have e2 : N - 3 + 1 = N - 2 := by omega
    rw [e1, e2] at hbase
    intro j hj
    rw [hD2 j hj]
    linarith
  -- hence the first difference is constant, and row 1 makes it zero
  have hD1 : ∀ j, j ≤ N - 2 → w (j + 1) - w j = w 1 - w 0 := by
    intro j
    induction j with
    | zero => intro _; rfl
    | succ m ih =>
      intro hj
      have hm := hD2z m (by omega)
      have hmih := ih (by omega)
      show w (m + 2) - w (m + 1) = w 1 - w 0
      linarith
  have hD1z : ∀ j, j ≤ N - 2 → w (j + 1) - w j = 0 := by
    intro j hj
    rw [hD1 j hj]
    linarith
  -- hence w is constant, and row 0 makes it zero
  have hflat : ∀ j, j ≤ N - 1 → w j = 0 := by
    intro j
    induction j with
    | zero => intro _; exact h00
    | succ m ih =>
      intro hj
      have hm := hD1z m (by omega)
      have hmih := ih (by omega)
      linarith
  funext i
  have hi : w i.val = 0 := hflat i.val (by omega)
  rw [hw, vExt_coe] at hi
  simpa using hi

/-- The assembled operator is nonsingular for every admissible grid size. -/
lemma assembleMatrix_det_ne_zero {N : ℕ} (alpha : ℚ) (h5 : 5 ≤ N) :
    (assembleMatrix N alpha).det ≠ 0 := by
  intro hdet
  obtain ⟨v, hv0, hv⟩ := Matrix.exists_mulVec_eq_zero_iff.mpr hdet
  exact hv0 (kernel_eq_zero h5 v hv)

/-! ### Properties of the direct solver -/

lemma mulVec_injective_of_det_ne_zero {n : ℕ} {A : Matrix (Fin n) (Fin n) ℚ}
    (h : A.det ≠ 0) : Function.Injective A.mulVec := by
  intro x y hxy
  have hU : IsUnit A.det := isUnit_iff_ne_zero.mpr h
  have h1 := congrArg (fun z => A⁻¹.mulVec z) hxy
  simpa [Matrix.mulVec_mulVec, Matrix.nonsing_inv_mul A hU, Matrix.one_mulVec] using h1

lemma cramer_solution_mulVec {n : ℕ} {A : Matrix (Fin n) (Fin n) ℚ}
    (hdet : A.det ≠ 0) (f : Fin n → ℚ) :
    A.mulVec (fun i => A.det⁻¹ * Matrix.cramer A f i) = f := by
  have hs : (fun i => A.det⁻¹ * Matrix.cramer A f i) = A.det⁻¹ • Matrix.cramer A f := by
    funext i
    simp [smul_eq_mul]
  rw [hs, Matrix.mulVec_smul, Matrix.mulVec_cramer, smul_smul, inv_mul_cancel₀ hdet, one_smul]

lemma exists_unique_solution {n : ℕ} {A : Matrix (Fin n) (Fin n) ℚ}
    (hdet : A.det ≠ 0) (f : Fin n → ℚ) : ∃! u, A.mulVec u = f := by
  refine ⟨fun i => A.det⁻¹ * Matrix.cramer A f i, cramer_solution_mulVec hdet f, ?_⟩
  intro y hy
  exact mulVec_injective_of_det_ne_zero hdet (hy.trans (cramer_solution_mulVec hdet f).symm)

lemma solve_ok_correct {n : ℕ} {A : Matrix (Fin n) (Fin n) ℚ} {f u : Fin n → ℚ}
    (h : solve A f = Except.ok u) : A.det ≠ 0 ∧ A.mulVec u = f := by
  by_cases hdet : A.det = 0
  · simp [solve, hdet] at h
  · refine ⟨hdet, ?_⟩
    have hu : u = fun i => A.det⁻¹ * Matrix.cramer A f i := by
      have h2 := h
      simp only [solve, hdet, if_false, if_neg hdet, Except.ok.injEq] at h2
      exact h2.symm
    rw [hu]
    exact cramer_solution_mulVec hdet f

lemma solve_eq_ok {n : ℕ} {A : Matrix (Fin n) (Fin n) ℚ} {f u : Fin n → ℚ}
    (hdet : A.det ≠ 0) (hu : A.mulVec u = f) : solve A f = Except.ok u := by
  have hcr : (fun i => A.det⁻¹ * Matrix.cramer A f i) = u :=
    mulVec_injective_of_det_ne_zero hdet ((cramer_solution_mulVec hdet f).trans hu.symm)
  unfold solve
  rw [if_neg hdet, hcr]

lemma solve_unique {n : ℕ} {A : Matrix (Fin n) (Fin n) ℚ} {f u v : Fin n → ℚ}
    (h : solve A f = Except.ok u) (hv : A.mulVec v = f) : v = u := by
  obtain ⟨hdet, hu⟩ := solve_ok_correct h
  exact mulVec_injective_of_det_ne_zero hdet (hv.trans hu.symm)

lemma solve_error_iff {n : ℕ} (A : Matrix (Fin n) (Fin n) ℚ) (f : Fin n → ℚ) :
    solve A f = Except.error SolveError.singularMatrix ↔ A.det = 0 := by
  unfold solve
  by_cases hdet : A.det = 0
  · simp [hdet]
  · simp [hdet]

/-! ### Load-vector facts lifted to the finite-index form -/

lemma loadVec_boundary {N : ℕ} {alpha : ℚ} (h5 : 5 ≤ N) (i : Fin N)
    (hb : i.val = 0 ∨ i.val = 1 ∨ i.val = N - 2 ∨ i.val = N - 1) :
    loadVec N alpha i = 0 :=
  assembleF_boundary h5 hb

lemma loadVec_interior {N : ℕ} {alpha : ℚ} (h5 : 5 ≤ N) (i : Fin N)
    (h2 : 2 ≤ i.val) (h3 : i.val ≤ N - 3) :
    loadVec N alpha i = -alpha * dx N ^ 4 :=
  assembleF_interior h5 h2 h3

lemma loadVec_double {N : ℕ} (h5 : 5 ≤ N) (b : ℚ) :
    loadVec N (2 * b) = fun i => 2 * loadVec N b i := by
  funext i
  have hiN : i.val < N := i.isLt
  by_cases hb : i.val = 0 ∨ i.val = 1 ∨ i.val = N - 2 ∨ i.val = N - 1
  · rw [loadVec_boundary h5 i hb, loadVec_boundary h5 i hb]
    ring
  · push_neg at hb
    have h2 : 2 ≤ i.val := by omega
    have h3 : i.val ≤ N - 3 := by omega
    rw [loadVec_interior h5 i h2 h3, loadVec_interior h5 i h2 h3]
    ring

lemma mulVec_row_eq {N : ℕ} (alpha : ℚ) (v g : Fin N → ℚ)
    (hv : (assembleMatrix N alpha).mulVec v = g) (i : ℕ) (hi : i < N) :
    ∑ k ∈ Finset.range N, assembleA N i k * vExt v k = g ⟨i, hi⟩ := by
  have h := mulVec_apply_eq_sum_range alpha v ⟨i, hi⟩
  rw [hv] at h
  exact h.symm

/-! ### Claim theorems -/

/-- C1: for every N at least 5 and every body force b, each interior row i with
2 <= i <= N-3 of the matrix returned by assemble(N, b) holds exactly the
stencil coefficients 1, -4, 6, -4, 1 in columns i-2..i+2 and zero elsewhere;
row 0 is 1 at column 0, row 1 is 1, -1 at columns 0..1, row N-2 is 1, -2, 1
at columns N-3..N-1, row N-1 is -1, 3, -3, 1 at columns N-4..N-1, and every
other entry of those rows is zero. -/
theorem claim_c1_matrix_rows (N : ℕ) (b : ℚ) (h5 : 5 ≤ N) (i j : ℕ)
    (hi : i < N) (hj : j < N) :
    (2 ≤ i ∧ i ≤ N - 3 → (assemble N b).1 i j =
      if j = i - 2 then 1 else if j = i - 1 then -4 else if j = i then 6
      else if j = i + 1 then -4 else if j = i + 2 then 1 else 0)
    ∧ (i = 0 → (assemble N b).1 i j = if j = 0 then 1 else 0)
    ∧ (i = 1 → (assemble N b).1 i j = if j = 0 then 1 else if j = 1 then -1 else 0)
    ∧ (i = N - 2 → (assemble N b).1 i j =
      if j = N - 3 then 1 else if j = N - 2 then -2 else if j = N - 1 then 1 else 0)
    ∧ (i = N - 1 → (assemble N b).1 i j =
      if j = N - 4 then -1 else if j = N - 3 then 3
      else if j = N - 2 then -3 else if j = N - 1 then 1 else 0) := by
  refine ⟨fun h => assembleA_rowInterior h5 h.1 h.2 j, fun h => ?_, fun h => ?_,
    fun h => ?_, fun h => ?_⟩
  · rw [show (assemble N b).1 = assembleA N from rfl, h]
    exact assembleA_row0 h5 j
  · rw [show (assemble N b).1 = assembleA N from rfl, h]
    exact assembleA_row1 h5 j
  · rw [show (assemble N b).1 = assembleA N from rfl, h]
    exact assembleA_rowN2 h5 j
  · rw [show (assemble N b).1 = assembleA N from rfl, h]
    exact assembleA_rowN1 h5 j

/-- C1 witness at N = 5, b = 1, row 2, column 0. -/
theorem claim_c1_matrix_rows_witness :
    (2 ≤ 2 ∧ 2 ≤ 5 - 3 → (assemble 5 1).1 2 0 =
      if 0 = 2 - 2 then 1 else if 0 = 2 - 1 then -4 else if 0 = 2 then 6
      else if 0 = 2 + 1 then -4 else if 0 = 2 + 2 then 1 else 0)
    ∧ (2 = 0 → (assemble 5 1).1 2 0 = if 0 = 0 then 1 else 0)
    ∧ (2 = 1 → (assemble 5 1).1 2 0 = if 0 = 0 then 1 else if 0 = 1 then -1 else 0)
    ∧ (2 = 5 - 2 → (assemble 5 1).1 2 0 =
      if 0 = 5 - 3 then 1 else if 0 = 5 - 2 then -2 else if 0 = 5 - 1 then 1 else 0)
    ∧ (2 = 5 - 1 → (assemble 5 1).1 2 0 =
      if 0 = 5 - 4 then -1 else if 0 = 5 - 3 then 3
      else if 0 = 5 - 2 then -3 else if 0 = 5 - 1 then 1 else 0) :=
  claim_c1_matrix_rows 5 1 (by norm_num) 2 0 (by norm_num) (by norm_num)

/-- C2: for every N at least 5 and every body force b, with h = 1/(N-1) the
load vector returned by assemble(N, b) equals -b*h^4 at every interior index
2 <= i <= N-3 and 0 at the boundary indices 0, 1, N-2, N-1. -/
theorem claim_c2_load_vector (N : ℕ) (b : ℚ) (h5 : 5 ≤ N) (i : ℕ) (hi : i < N) :
    (2 ≤ i ∧ i ≤ N - 3 → (assemble N b).2 i = -b * (1 / ((N : ℚ) - 1)) ^ 4)
    ∧ ((i = 0 ∨ i = 1 ∨ i = N - 2 ∨ i = N - 1) → (assemble N b).2 i = 0) :=
  ⟨fun h => assembleF_interior h5 h.1 h.2, fun h => assembleF_boundary h5 h⟩

/-- C2 witness at N = 5, b = 1, i = 2. -/
theorem claim_c2_load_vector_witness :
    (2 ≤ 2 ∧ 2 ≤ 5 - 3 → (assemble 5 1).2 2 = -1 * (1 / (((5 : ℕ) : ℚ) - 1)) ^ 4)
    ∧ ((2 = 0 ∨ 2 = 1 ∨ 2 = 5 - 2 ∨ 2 = 5 - 1) → (assemble 5 1).2 2 = 0) :=
  claim_c2_load_vector 5 1 (by norm_num) 2 (by norm_num)

/-- C3: for every N at least 5 and every body force b, the matrix returned by
assemble(N, b) is non-singular, so the linear system has a unique solution. -/
theorem claim_c3_nonsingular (N : ℕ) (b : ℚ) (h5 : 5 ≤ N) :
    (assembleMatrix N b).det ≠ 0
    ∧ ∃! u : Fin N → ℚ, (assembleMatrix N b).mulVec u = loadVec N b :=
  ⟨assembleMatrix_det_ne_zero b h5,
    exists_unique_solution (assembleMatrix_det_ne_zero b h5) (loadVec N b)⟩

/-- C3 witness at N = 5, b = 1. -/
theorem claim_c3_nonsingular_witness :
    (assembleMatrix 5 1).det ≠ 0
    ∧ ∃! u : Fin 5 → ℚ, (assembleMatrix 5 1).mulVec u = loadVec 5 1 :=
  claim_c3_nonsingular 5 1 (by norm_num)

/-- C9: for every N at least 5 and any two body forces, the four boundary rows
of the matrix and the four boundary load entries returned by assemble are
identical; load entries outside the interior band do not depend on b. -/
theorem claim_c9_boundary_invariant (N : ℕ) (b₁ b₂ : ℚ) (h5 : 5 ≤ N) :
    (∀ i j : ℕ, (i = 0 ∨ i = 1 ∨ i = N - 2 ∨ i = N - 1) →
      (assemble N b₁).1 i j = (assemble N b₂).1 i j)
    ∧ (∀ i : ℕ, (i = 0 ∨ i = 1 ∨ i = N - 2 ∨ i = N - 1) →
      (assemble N b₁).2 i = (assemble N b₂).2 i)
    ∧ (∀ i : ℕ, i < N → ¬(2 ≤ i ∧ i ≤ N - 3) →
      (assemble N b₁).2 i = (assemble N b₂).2 i) := by
  refine ⟨fun i j _ => rfl, fun i h => ?_, fun i hiN h => ?_⟩
  · rw [show (assemble N b₁).2 = assembleF N b₁ from rfl,
      show (assemble N b₂).2 = assembleF N b₂ from rfl,
      assembleF_boundary h5 h, assembleF_boundary h5 h]
  · have hb : i = 0 ∨ i = 1 ∨ i = N - 2 ∨ i = N - 1 := by omega
    rw [show (assemble N b₁).2 = assembleF N b₁ from rfl,
      show (assemble N b₂).2 = assembleF N b₂ from rfl,
      assembleF_boundary h5 hb, assembleF_boundary h5 hb]

/-- C9 witness at N = 5, b1 = 1, b2 = 2. -/
theorem claim_c9_boundary_invariant_witness :
    (∀ i j : ℕ, (i = 0 ∨ i = 1 ∨ i = 5 - 2 ∨ i = 5 - 1) →
      (assemble 5 1).1 i j = (assemble 5 2).1 i j)
    ∧ (∀ i : ℕ, (i = 0 ∨ i = 1 ∨ i = 5 - 2 ∨ i = 5 - 1) →
      (assemble 5 1).2 i = (assemble 5 2).2 i)
    ∧ (∀ i : ℕ, i < 5 → ¬(2 ≤ i ∧ i ≤ 5 - 3) →
      (assemble 5 1).2 i = (assemble 5 2).2 i) :=
  claim_c9_boundary_invariant 5 1 2 (by norm_num)

/-- C10: for every N at least 5 and every body force b, the assembled matrix
applied to the all-ones vector gives the first standard basis vector: every
difference row has coefficient sum 0 and row 0 has coefficient sum 1. -/
theorem claim_c10_annihilates_constants (N : ℕ) (b : ℚ) (h5 : 5 ≤ N) :
    (assembleMatrix N b).mulVec (fun _ => 1) =
      fun i : Fin N => if i.val = 0 then 1 else 0 := by
  funext i
  have hiN : i.val < N := i.isLt
  rw [mulVec_apply_eq_sum_range]
  have hw : ∀ k, k < N → vExt (fun _ : Fin N => (1 : ℚ)) k = 1 := by
    intro k hk
    simp [vExt, hk]
  rcases (show i.val = 0 ∨ i.val = 1 ∨ (2 ≤ i.val ∧ i.val ≤ N - 3)
      ∨ i.val = N - 2 ∨ i.val = N - 1 by omega) with h | h | h | h | h
  · rw [h, dot_row0 h5, hw 0 (by omega)]
    simp
  · rw [h, dot_row1 h5, hw 0 (by omega), hw 1 (by omega)]
    norm_num
  · rw [dot_rowInterior h5 h.1 h.2, hw (i.val - 2) (by omega), hw (i.val - 1) (by omega),
      hw i.val (by omega), hw (i.val + 1) (by omega), hw (i.val + 2) (by omega),
      if_neg (by omega)]
    norm_num
  · rw [h, dot_rowN2 h5, hw (N - 3) (by omega), hw (N - 2) (by omega), hw (N - 1) (by omega),
      if_neg (by omega)]
    norm_num
  · rw [h, dot_rowN1 h5, hw (N - 4) (by omega), hw (N - 3) (by omega), hw (N - 2) (by omega),
      hw (N - 1) (by omega), if_neg (by omega)]
    norm_num

/-- C10 witness at N = 5, b = 1. -/
theorem claim_c10_annihilates_constants_witness :
    (assembleMatrix 5 1).mulVec (fun _ => 1) =
      fun i : Fin 5 => if i.val = 0 then 1 else 0 :=
  claim_c10_annihilates_constants 5 1 (by norm_num)

/-- C4: for every N at least 5 and every body force b, the solution returned
by the solver for the system assembled by assemble(N, b) satisfies u[0] = 0
and u[1] = u[0] exactly (over exact arithmetic), reflecting the Dirichlet
and Neumann conditions encoded in rows 0 and 1. -/
theorem claim_c4_left_boundary (N : ℕ) (b : ℚ) (h5 : 5 ≤ N) (u : Fin N → ℚ)
    (hu : solve (assembleMatrix N b) (loadVec N b) = Except.ok u) :
    u ⟨0, by omega⟩ = 0 ∧ u ⟨1, by omega⟩ = u ⟨0, by omega⟩ := by
  obtain ⟨hdet, hmv⟩ := solve_ok_correct hu
  have h0 := mulVec_row_eq b u (loadVec N b) hmv 0 (by omega)
  rw [dot_row0 h5] at h0
  have h1 := mulVec_row_eq b u (loadVec N b) hmv 1 (by omega)
  rw [dot_row1 h5] at h1
  have hl0 : loadVec N b ⟨0, by omega⟩ = 0 := loadVec_boundary h5 _ (Or.inl rfl)
  have hl1 : loadVec N b ⟨1, by omega⟩ = 0 := loadVec_boundary h5 _ (Or.inr (Or.inl rfl))
  have e0 : u ⟨0, by omega⟩ = vExt u 0 := (vExt_coe u ⟨0, by omega⟩).symm
  have e1 : u ⟨1, by omega⟩ = vExt u 1 := (vExt_coe u ⟨1, by omega⟩).symm
  constructor
  · rw [e0, h0, hl0]
  · rw [e0, e1]
    have := h1.trans hl1
    linarith

/-- C4 witness at N = 5, b = 1, with the explicit exact solution u5. -/
theorem claim_c4_left_boundary_witness :
    u5 ⟨0, by omega⟩ = 0 ∧ u5 ⟨1, by omega⟩ = u5 ⟨0, by omega⟩ :=
  claim_c4_left_boundary 5 1 (by norm_num) u5
    (solve_eq_ok (assembleMatrix_det_ne_zero 1 (by norm_num)) (by
      funext i
      fin_cases i <;>
        norm_num [assembleMatrix, loadVec, assemble, Matrix.mulVec, Matrix.dotProduct,
          Fin.sum_univ_five, assembleA, interiorA, writeEntry, stencilWrite, assembleF,
          interiorF, writeLoad, u5, dx, List.range', List.foldl_cons, List.foldl_nil,
          Matrix.of_apply, Fin.isValue,
          show ((3 : Fin 5) : ℕ) = 3 from rfl, show ((4 : Fin 5) : ℕ) = 4 from rfl]))

/-- C5: for every N at least 5 and every body force b, the solution of the
system assembled with body force 2b is exactly twice the solution of the
system assembled with body force b. -/
theorem claim_c5_scaling (N : ℕ) (b : ℚ) (h5 : 5 ≤ N) (u₁ u₂ : Fin N → ℚ)
    (h1 : solve (assembleMatrix N b) (loadVec N b) = Except.ok u₁)
    (h2 : solve (assembleMatrix N (2 * b)) (loadVec N (2 * b)) = Except.ok u₂) :
    u₂ = fun i => 2 * u₁ i := by
  obtain ⟨hdet1, hm1⟩ := solve_ok_correct h1
  have hs : (fun i => 2 * u₁ i) = (2 : ℚ) • u₁ := by
    funext k
    simp
  have hm2 : (assembleMatrix N (2 * b)).mulVec (fun i => 2 * u₁ i) = loadVec N (2 * b) := by
    rw [show assembleMatrix N (2 * b) = assembleMatrix N b from rfl, hs,
      Matrix.mulVec_smul, hm1, loadVec_double h5 b]
    funext i
    simp
  exact (solve_unique h2 hm2).symm

/-- C5 witness at N = 5, b = 1, with the explicit exact solutions u5, u5d. -/
theorem claim_c5_scaling_witness : u5d = fun i => 2 * u5 i :=
  claim_c5_scaling 5 1 (by norm_num) u5 u5d
    (solve_eq_ok (assembleMatrix_det_ne_zero 1 (by norm_num)) (by
      funext i
      fin_cases i <;>
        norm_num [assembleMatrix, loadVec, assemble, Matrix.mulVec, Matrix.dotProduct,
          Fin.sum_univ_five, assembleA, interiorA, writeEntry, stencilWrite, assembleF,
          interiorF, writeLoad, u5, dx, List.range', List.foldl_cons, List.foldl_nil,
          Matrix.of_apply, Fin.isValue,
          show ((3 : Fin 5) : ℕ) = 3 from rfl, show ((4 : Fin 5) : ℕ) = 4 from rfl]))
    (solve_eq_ok (assembleMatrix_det_ne_zero (2 * 1) (by norm_num)) (by
      funext i
      fin_cases i <;>
        norm_num [assembleMatrix, loadVec, assemble, Matrix.mulVec, Matrix.dotProduct,
          Fin.sum_univ_five, assembleA, interiorA, writeEntry, stencilWrite, assembleF,
          interiorF, writeLoad, u5d, dx, List.range', List.foldl_cons, List.foldl_nil,
          Matrix.of_apply, Fin.isValue,
          show ((3 : Fin 5) : ℕ) = 3 from rfl, show ((4 : Fin 5) : ℕ) = 4 from rfl]))

/-- C6: for every body force b and sample count m at least 2, the reference
curve has m pairs, its k-th point is x = k/(m-1) with value
-b*x^2*(1/4 - x/6 + x^2/24), consecutive sample points are 1/(m-1) apart and
run from 0 to 1; at x = 1 with b = 1 the value is exactly -1/8. -/
theorem claim_c6_reference (b : ℚ) (m : ℕ) (hm : 2 ≤ m) :
    (reference b m).length = m
    ∧ reference b m = (List.range m).map (fun k : ℕ =>
        ((k : ℚ) / ((m : ℚ) - 1),
          -b * ((k : ℚ) / ((m : ℚ) - 1)) ^ 2
            * (1 / 4 - ((k : ℚ) / ((m : ℚ) - 1)) / 6 + ((k : ℚ) / ((m : ℚ) - 1)) ^ 2 / 24)))
    ∧ (∀ k : ℕ, k + 1 < m →
        ((k : ℚ) + 1) / ((m : ℚ) - 1) - (k : ℚ) / ((m : ℚ) - 1) = 1 / ((m : ℚ) - 1))
    ∧ (0 : ℚ) / ((m : ℚ) - 1) = 0
    ∧ ((m : ℚ) - 1) / ((m : ℚ) - 1) = 1
    ∧ u_ref 1 1 = -(1 / 8) := by
  have hm1 : ((m : ℚ) - 1) ≠ 0 := by
    have h2 : (2 : ℚ) ≤ (m : ℚ) := by exact_mod_cast hm
    intro h
    rw [sub_eq_zero] at h
    rw [h] at h2
    norm_num at h2
  refine ⟨?_, ?_, ?_, ?_, ?_, ?_⟩
  · simp only [reference, x_ref, List.length_map, List.length_range]
  · unfold reference x_ref u_ref
    rw [List.map_map]
    rfl
  · intro k _
    rw [div_sub_div_same]
    norm_num
  · exact zero_div _
  · exact div_self hm1
  · norm_num [u_ref]

/-- C6 witness at b = 1, m = 2. -/
theorem claim_c6_reference_witness :
    (reference 1 2).length = 2
    ∧ reference 1 2 = (List.range 2).map (fun k : ℕ =>
        ((k : ℚ) / (((2 : ℕ) : ℚ) - 1),
          -1 * ((k : ℚ) / (((2 : ℕ) : ℚ) - 1)) ^ 2
            * (1 / 4 - ((k : ℚ) / (((2 : ℕ) : ℚ) - 1)) / 6
              + ((k : ℚ) / (((2 : ℕ) : ℚ) - 1)) ^ 2 / 24)))
    ∧ (∀ k : ℕ, k + 1 < 2 →
        ((k : ℚ) + 1) / (((2 : ℕ) : ℚ) - 1) - (k : ℚ) / (((2 : ℕ) : ℚ) - 1)
          = 1 / (((2 : ℕ) : ℚ) - 1))
    ∧ (0 : ℚ) / (((2 : ℕ) : ℚ) - 1) = 0
    ∧ (((2 : ℕ) : ℚ) - 1) / (((2 : ℕ) : ℚ) - 1) = 1
    ∧ u_ref 1 1 = -(1 / 8) :=
  claim_c6_reference 1 2 (by norm_num)

/-- C7 counterexample: at N = 4 (which is below 5) the assembly cell simply
completes and returns a matrix and load vector; it does not fail with
InvalidDomainSize. -/
theorem claim_c7_counterexample :
    assembleE 4 1 ≠ Except.error AssembleError.invalidDomainSize := by
  intro h
  exact Except.noConfusion h

/-- C7 amended: the assembly cell performs no domain-size validation: there is
no InvalidDomainSize check, and in particular for N = 4 (the one undersized
grid on which every assembly write is still in range) assembly completes and
returns the 4 x 4 matrix and load vector instead of failing. -/
theorem claim_c7_amended (b : ℚ) : assembleE 4 b = Except.ok (assemble 4 b) := rfl

/-- C8: the solver fails with SingularMatrix exactly when the matrix is
singular, returning the error rather than a garbage vector, and for a
nonsingular matrix it returns the unique solution of the system. -/
theorem claim_c8_solve_contract (n : ℕ) (A : Matrix (Fin n) (Fin n) ℚ) (f : Fin n → ℚ) :
    (solve A f = Except.error SolveError.singularMatrix ↔ A.det = 0)
    ∧ (A.det ≠ 0 → ∃ u, solve A f = Except.ok u
        ∧ A.mulVec u = f ∧ ∀ v, A.mulVec v = f → v = u) := by
  refine ⟨solve_error_iff A f, fun hdet => ?_⟩
  obtain ⟨u, hu, huniq⟩ := exists_unique_solution hdet f
  exact ⟨u, solve_eq_ok hdet hu, hu, huniq⟩

/-- C8 witness on the concrete nonsingular 1 x 1 system 2 u = 4. -/
theorem claim_c8_solve_contract_witness :
    ∃ u, solve !![(2 : ℚ)] ![4] = Except.ok u
      ∧ (!![(2 : ℚ)]).mulVec u = ![4] ∧ ∀ v, (!![(2 : ℚ)]).mulVec v = ![4] → v = u :=
  (claim_c8_solve_contract 1 !![(2 : ℚ)] ![4]).2 (by norm_num [Matrix.det_fin_one_of])

end Beam
